import Mathlib

/-!
Verification of the git-fleet core (`src/git_fleet/core.py`,
`src/git_fleet/formatters.py`) against its specification.

The Python code is shallowly embedded: dataclasses become structures,
`@property` methods become functions, the external `git` tool is modelled
by per-repository record fields holding the values the adapter would
return (merge base, changed-file sets, pull/push outcomes), and the
thread-pool execution engine is modelled by an arbitrary completion-order
permutation of the mapped results.
-/

namespace GitFleet

/-- `SyncStatus` (core.py, class SyncStatus): repository sync status with remote. -/
inductive SyncStatus where
  | clean
  | ahead
  | behind
  | diverged
  | no_upstream
  | detached
  | no_remote
  | error
deriving DecidableEq, Repr

/-- `WorkingTreeStatus` (core.py): working tree status. -/
inductive WorkingTreeStatus where
  | clean
  | dirty
deriving DecidableEq, Repr

/-- `PullMode` (core.py): pull safety mode. -/
inductive PullMode where
  | smart
  | safe
  | force
deriving DecidableEq, Repr

/-- `RepositoryStatus` (core.py, dataclass): complete status of a Git
repository.  `last_commit_date` is omitted (an opaque optional instant,
unused by any property considered here); paths are modelled as strings. -/
structure RepositoryStatus where
  path : String
  name : String
  branch : String := ""
  remote_branch : String := ""
  sync_status : SyncStatus := SyncStatus.clean
  ahead_count : Nat := 0
  behind_count : Nat := 0
  staged_count : Nat := 0
  unstaged_count : Nat := 0
  untracked_count : Nat := 0
  error_message : String := ""
deriving DecidableEq, Repr

/-- `RepositoryStatus.working_tree_status` (core.py): dirty iff any of the
three counters is positive. -/
def RepositoryStatus.working_tree_status (s : RepositoryStatus) : WorkingTreeStatus :=
  if s.staged_count > 0 || s.unstaged_count > 0 || s.untracked_count > 0 then
    WorkingTreeStatus.dirty
  else
    WorkingTreeStatus.clean

/-- `RepositoryStatus.needs_push` (core.py): sync status in (AHEAD, DIVERGED). -/
def RepositoryStatus.needs_push (s : RepositoryStatus) : Bool :=
  match s.sync_status with
  | SyncStatus.ahead | SyncStatus.diverged => true
  | _ => false

/-- `RepositoryStatus.needs_pull` (core.py): sync status in (BEHIND, DIVERGED). -/
def RepositoryStatus.needs_pull (s : RepositoryStatus) : Bool :=
  match s.sync_status with
  | SyncStatus.behind | SyncStatus.diverged => true
  | _ => false

/-- `RepositoryStatus.is_diverged` (core.py). -/
def RepositoryStatus.is_diverged (s : RepositoryStatus) : Bool :=
  s.sync_status = SyncStatus.diverged

/-- `RepositoryStatus.has_conflict_risk` (core.py): diverged, or dirty + behind. -/
def RepositoryStatus.has_conflict_risk (s : RepositoryStatus) : Bool :=
  if s.is_diverged then true
  else if s.needs_pull && s.working_tree_status = WorkingTreeStatus.dirty then true
  else false

/-- One repository as seen through the VCS adapter (`GitOperations` /
`GitRepository` in core.py).  The fields record what the corresponding
adapter query would return for this repository:
`mergeBase` = `get_merge_base()` (merge-base of HEAD and `@{u}`, `none` on
failure); `remoteChangedFiles` = `get_changed_files_between(M, "@{u}")`;
`localChangedFiles` = `get_changed_files_between(M, "HEAD")`;
`dirtyFiles` = `get_dirty_files()`; `pullSuccess`/`pullMessage` and
`pushSuccess`/`pushMessage` = outcome of `GitOperations.pull`/`push`. -/
structure GitRepo where
  path : String
  name : String
  mergeBase : Option String := none
  remoteChangedFiles : List String := []
  localChangedFiles : List String := []
  dirtyFiles : List String := []
  pullSuccess : Bool := true
  pullMessage : String := ""
  pushSuccess : Bool := true
  pushMessage : String := ""
deriving DecidableEq, Repr

/-- `GitOperations.has_file_conflicts` (core.py): if the merge base cannot
be determined, assume conflict; otherwise the local changed files (between
merge base and HEAD) are unioned with the dirty files and intersected with
the remote changed files (between merge base and upstream). -/
def GitRepo.has_file_conflicts (r : GitRepo) : Bool :=
  match r.mergeBase with
  | none => true
  | some _ =>
      (r.localChangedFiles ++ r.dirtyFiles).any
        (fun f => r.remoteChangedFiles.contains f)

/-- Result of the combined status probe `GitOperations.get_status_porcelain`
(core.py): branch names, ahead/behind counts and the three change counters. -/
structure PorcelainInfo where
  branch : String := ""
  remote_branch : String := ""
  ahead : Nat := 0
  behind : Nat := 0
  staged_count : Nat := 0
  unstaged_count : Nat := 0
  untracked_count : Nat := 0
deriving DecidableEq, Repr

/-- `GitRepository.get_status` (core.py), non-error path: copy the probe
fields into a `RepositoryStatus` and classify `sync_status` by the
priority-ordered chain (upstream present → ahead/behind comparison;
else "(detached)" branch → detached; else any remote → no_upstream;
else no_remote).  `hasRemotes` is the value of `self.ops.has_remotes()`. -/
def get_status (path name : String) (info : PorcelainInfo) (hasRemotes : Bool) :
    RepositoryStatus :=
  let sync :=
    if info.remote_branch ≠ "" then
      if info.ahead > 0 && info.behind > 0 then SyncStatus.diverged
      else if info.ahead > 0 then SyncStatus.ahead
      else if info.behind > 0 then SyncStatus.behind
      else SyncStatus.clean
    else if info.branch = "(detached)" then SyncStatus.detached
    else if hasRemotes then SyncStatus.no_upstream
    else SyncStatus.no_remote
  { path := path
    name := name
    branch := info.branch
    remote_branch := info.remote_branch
    sync_status := sync
    ahead_count := info.ahead
    behind_count := info.behind
    staged_count := info.staged_count
    unstaged_count := info.unstaged_count
    untracked_count := info.untracked_count }

/-- `OperationResult` (core.py, dataclass): outcome of one fetch/pull/push
attempt against one repository. -/
structure OperationResult where
  path : String
  name : String
  success : Bool
  operation : String
  message : String := ""
  error : String := ""
deriving DecidableEq, Repr

/-- `GitRepository.pull` (core.py): wrap the adapter's pull outcome in an
`OperationResult`. -/
def GitRepo.pullResult (r : GitRepo) : OperationResult :=
  { path := r.path
    name := r.name
    success := r.pullSuccess
    operation := "pull"
    message := if r.pullSuccess then r.pullMessage else ""
    error := if r.pullSuccess then "" else r.pullMessage }

/-- `GitRepository.push` (core.py): wrap the adapter's push outcome in an
`OperationResult`. -/
def GitRepo.pushResult (r : GitRepo) : OperationResult :=
  { path := r.path
    name := r.name
    success := r.pushSuccess
    operation := "push"
    message := if r.pushSuccess then r.pushMessage else ""
    error := if r.pushSuccess then "" else r.pushMessage }

/-- Lexicographic comparison of character lists by Unicode code point:
the order Python's `sorted` / `list.sort` use on path-string keys. -/
def lexLe : List Char → List Char → Bool
  | [], _ => true
  | _ :: _, [] => false
  | a :: as, b :: bs =>
      if a < b then true
      else if b < a then false
      else lexLe as bs

/-- String comparison by code points (the shape of Python `str` ordering). -/
def strLe (a b : String) : Bool := lexLe a.data b.data

theorem lexLe_cons (a b : Char) (as bs : List Char) :
    lexLe (a :: as) (b :: bs) = true ↔ a < b ∨ (a = b ∧ lexLe as bs = true) := by
  by_cases h1 : a < b
  · simp [lexLe, h1]
  · by_cases h2 : b < a
    · have hne : a ≠ b := fun heq => absurd (heq ▸ h2) (lt_irrefl b)
      simp [lexLe, h1, h2, hne]
    · have heq : a = b := le_antisymm (not_lt.mp h2) (not_lt.mp h1)
      simp [lexLe, h1, h2, heq]

theorem lexLe_total : ∀ as bs : List Char, lexLe as bs = true ∨ lexLe bs as = true
  | [], _ => Or.inl rfl
  | _ :: _, [] => Or.inr rfl
  | a :: as, b :: bs => by
      rcases lt_trichotomy a b with h | h | h
      · exact Or.inl ((lexLe_cons a b as bs).mpr (Or.inl h))
      · rcases lexLe_total as bs with hr | hr
        · exact Or.inl ((lexLe_cons a b as bs).mpr (Or.inr ⟨h, hr⟩))
        · exact Or.inr ((lexLe_cons b a bs as).mpr (Or.inr ⟨h.symm, hr⟩))
      · exact Or.inr ((lexLe_cons b a bs as).mpr (Or.inl h))

theorem lexLe_trans : ∀ as bs cs : List Char,
    lexLe as bs = true → lexLe bs cs = true → lexLe as cs = true
  | [], _, _, _, _ => rfl
  | _ :: _, [], _, h1, _ => by simp [lexLe] at h1
  | _ :: _, _ :: _, [], _, h2 => by simp [lexLe] at h2
  | a :: as, b :: bs, c :: cs, h1, h2 => by
      rcases (lexLe_cons a b as bs).mp h1 with hab | ⟨hab, hr1⟩ <;>
        rcases (lexLe_cons b c bs cs).mp h2 with hbc | ⟨hbc, hr2⟩
      · exact (lexLe_cons a c as cs).mpr (Or.inl (lt_trans hab hbc))
      · exact (lexLe_cons a c as cs).mpr (Or.inl (hbc ▸ hab))
      · exact (lexLe_cons a c as cs).mpr (Or.inl (hab ▸ hbc))
      · exact (lexLe_cons a c as cs).mpr
          (Or.inr ⟨hab.trans hbc, lexLe_trans as bs cs hr1 hr2⟩)

theorem lexLe_antisymm : ∀ as bs : List Char,
    lexLe as bs = true → lexLe bs as = true → as = bs
  | [], [], _, _ => rfl
  | [], _ :: _, _, h2 => by simp [lexLe] at h2
  | _ :: _, [], h1, _ => by simp [lexLe] at h1
  | a :: as, b :: bs, h1, h2 => by
      rcases (lexLe_cons a b as bs).mp h1 with hab | ⟨hab, hr1⟩
      · rcases (lexLe_cons b a bs as).mp h2 with hba | ⟨hba, _⟩
        · exact absurd hba (lt_asymm hab)
        · exact absurd (hba ▸ hab) (lt_irrefl a)
      · rcases (lexLe_cons b a bs as).mp h2 with hba | ⟨_, hr2⟩
        · exact absurd (hab ▸ hba) (lt_irrefl b)
        · rw [hab, lexLe_antisymm as bs hr1 hr2]

theorem strLe_total (a b : String) : strLe a b = true ∨ strLe b a = true :=
  lexLe_total a.data b.data

theorem strLe_trans {a b c : String} (h1 : strLe a b = true)
    (h2 : strLe b c = true) : strLe a c = true :=
  lexLe_trans a.data b.data c.data h1 h2

theorem strLe_antisymm {a b : String} (h1 : strLe a b = true)
    (h2 : strLe b a = true) : a = b :=
  String.ext (lexLe_antisymm a.data b.data h1 h2)

/-- Python's `results.sort(key=...)` (core.py, `_execute_parallel`): sort a
result list by a string key, ascending. -/
def sortByKey {α : Type} (key : α → String) (l : List α) : List α :=
  l.mergeSort (fun x y => strLe (key x) (key y))

/-- Sortedness predicate for result lists: ascending in the key. -/
def sortedByKey {α : Type} (key : α → String) (l : List α) : Prop :=
  l.Pairwise (fun x y => strLe (key x) (key y) = true)

theorem sortByKey_perm {α : Type} (key : α → String) (l : List α) :
    (sortByKey key l).Perm l :=
  List.mergeSort_perm l _

theorem sortByKey_sorted {α : Type} (key : α → String) (l : List α) :
    sortedByKey key (sortByKey key l) := by
  have h := @List.sorted_mergeSort _ (fun x y => strLe (key x) (key y))
    (fun a b c h1 h2 => strLe_trans h1 h2)
    (fun a b => by
      rcases strLe_total (key a) (key b) with h | h <;> simp [h])
    l
  exact h

/-- Two lists sorted by key that are permutations of each other and whose
keys are duplicate-free are equal. -/
theorem eq_of_perm_of_sortedByKey {α : Type} (key : α → String) :
    ∀ (l₁ l₂ : List α), l₁.Perm l₂ →
      sortedByKey key l₁ → sortedByKey key l₂ →
      (l₁.map key).Nodup → l₁ = l₂ := by
  intro l₁
  induction l₁ with
  | nil =>
      intro l₂ hp _ _ _
      exact hp.nil_eq
  | cons a t ih =>
      intro l₂ hp hs₁ hs₂ hnd
      cases l₂ with
      | nil => exact absurd hp.symm.nil_eq (by simp)
      | cons b t₂ =>
          have hb : b ∈ a :: t := hp.mem_iff.mpr (List.mem_cons_self b t₂)
          have ha : a ∈ b :: t₂ := hp.mem_iff.mp (List.mem_cons_self a t)
          have hnd' : (∀ x ∈ t, ¬ key x = key a) ∧ (t.map key).Nodup := by
            simpa using hnd
          have hab : a = b := by
            rcases List.mem_cons.mp hb with h | hbt
            · exact h.symm
            rcases List.mem_cons.mp ha with h | hat
            · exact h
            · exfalso
              have h1 : strLe (key a) (key b) = true :=
                (List.pairwise_cons.mp hs₁).1 b hbt
              have h2 : strLe (key b) (key a) = true :=
                (List.pairwise_cons.mp hs₂).1 a hat
              have heq : key a = key b := strLe_antisymm h1 h2
              exact hnd'.1 b hbt heq.symm
          subst hab
          rw [ih t₂ hp.cons_inv (List.pairwise_cons.mp hs₁).2
            (List.pairwise_cons.mp hs₂).2 hnd'.2]

/-- `FleetManager._execute_parallel` (core.py).  The sequential branch
(taken when `sequential` is set or at most one repository is given) maps
`op` over the repositories in submission order; the thread-pool branch
gathers results in completion order, modelled here by the caller-supplied
`completion` list, which in any real run is a permutation of the mapped
results.  Both branches finish by sorting on the result's path key. -/
def executeParallel {α : Type} (op : GitRepo → α) (key : α → String)
    (repos : List GitRepo) (sequential : Bool) (completion : List α) : List α :=
  if sequential || repos.length ≤ 1 then sortByKey key (repos.map op)
  else sortByKey key completion

/-- Whether `_execute_parallel` enters the `ThreadPoolExecutor` branch. -/
def poolCreated (repos : List GitRepo) (sequential : Bool) : Bool :=
  !(sequential || repos.length ≤ 1)

/-- C5: with any completion order, concurrent execution returns one result
per input handle (same length, equal as a multiset to mapping the
operation over the handles); when the result keys are duplicate-free the
returned list is identical to the sequential one; and no thread pool is
created in sequential mode or for inputs of at most one repository. -/
theorem executeParallel_equiv {α : Type} (op : GitRepo → α) (key : α → String)
    (repos : List GitRepo) (completion : List α)
    (hperm : completion.Perm (repos.map op)) :
    (executeParallel op key repos false completion).length = repos.length ∧
    (executeParallel op key repos false completion : Multiset α) =
      ((repos.map op : List α) : Multiset α) ∧
    (((repos.map op).map key).Nodup →
      executeParallel op key repos false completion =
        executeParallel op key repos true []) ∧
    (repos.length ≤ 1 → poolCreated repos false = false) ∧
    poolCreated repos true = false := by
  have hconc : (executeParallel op key repos false completion).Perm (repos.map op) := by
    unfold executeParallel
    split
    · exact sortByKey_perm key _
    · exact (sortByKey_perm key _).trans hperm
  refine ⟨?_, ?_, ?_, ?_, ?_⟩
  · simpa using hconc.length_eq
  · exact Multiset.coe_eq_coe.mpr hconc
  · intro hnd
    have hseq : executeParallel op key repos true [] = sortByKey key (repos.map op) := by
      unfold executeParallel
      simp
    rw [hseq]
    refine eq_of_perm_of_sortedByKey key _ _
      (hconc.trans (sortByKey_perm key _).symm) ?_ ?_ ?_
    · unfold executeParallel
      split
      · exact sortByKey_sorted key _
      · exact sortByKey_sorted key _
    · exact sortByKey_sorted key _
    · exact ((hconc.map key).nodup_iff).mpr hnd
  · intro h
    simp [poolCreated, h]
  · simp [poolCreated]

/-- C5 witness: two repositories, completion order reversed; the engine
still returns one result per handle. -/
theorem executeParallel_equiv_witness :
    (executeParallel GitRepo.pullResult OperationResult.path
      [{ path := "a", name := "a" }, { path := "b", name := "b" }] false
      [GitRepo.pullResult { path := "b", name := "b" },
       GitRepo.pullResult { path := "a", name := "a" }]).length = 2 :=
  (executeParallel_equiv GitRepo.pullResult OperationResult.path
    [{ path := "a", name := "a" }, { path := "b", name := "b" }]
    [GitRepo.pullResult { path := "b", name := "b" },
     GitRepo.pullResult { path := "a", name := "a" }]
    (by decide)).1

/-- C2: the conflict-risk resolver returns true when the merge base is
undeterminable, and otherwise true iff the union of the local changed
files and the dirty files intersects the remote changed files. -/
theorem has_file_conflicts_spec (r : GitRepo) :
    r.has_file_conflicts = true ↔
      (r.mergeBase = none ∨
        ∃ f, (f ∈ r.localChangedFiles ∨ f ∈ r.dirtyFiles) ∧
          f ∈ r.remoteChangedFiles) := by
  unfold GitRepo.has_file_conflicts
  cases h : r.mergeBase with
  | none => simp
  | some m =>
      simp only [List.any_eq_true, List.mem_append, List.contains_eq_any_beq,
        beq_iff_eq, h, reduceCtorEq, false_or]
      constructor
      · rintro ⟨f, hf, g, hg, rfl⟩
        exact ⟨f, hf, hg⟩
      · rintro ⟨f, hf, hr⟩
        exact ⟨f, hf, f, hr, rfl⟩

/-- C2 witness: a repository whose only overlap comes from a dirty file. -/
theorem has_file_conflicts_spec_witness :
    ({ path := "p", name := "p", mergeBase := some "m",
       remoteChangedFiles := ["a.txt"], localChangedFiles := ["b.txt"],
       dirtyFiles := ["a.txt"] } : GitRepo).has_file_conflicts = true ↔
      (({ path := "p", name := "p", mergeBase := some "m",
          remoteChangedFiles := ["a.txt"], localChangedFiles := ["b.txt"],
          dirtyFiles := ["a.txt"] } : GitRepo).mergeBase = none ∨
        ∃ f, (f ∈ ["b.txt"] ∨ f ∈ ["a.txt"]) ∧ f ∈ ["a.txt"]) :=
  has_file_conflicts_spec _

/-- C4: `has_conflict_risk` holds exactly for diverged repositories and
for dirty repositories that need a pull; `needs_push` / `needs_pull` are
membership in {ahead, diverged} / {behind, diverged}; with a clean working
tree, none of the non-diverged, non-behind statuses carries conflict risk. -/
theorem has_conflict_risk_spec (s : RepositoryStatus) :
    (s.has_conflict_risk = true ↔
      (s.sync_status = SyncStatus.diverged ∨
        (s.needs_pull = true ∧
          s.staged_count + s.unstaged_count + s.untracked_count > 0))) ∧
    (s.needs_push = true ↔
      (s.sync_status = SyncStatus.ahead ∨ s.sync_status = SyncStatus.diverged)) ∧
    (s.needs_pull = true ↔
      (s.sync_status = SyncStatus.behind ∨ s.sync_status = SyncStatus.diverged)) ∧
    (s.staged_count + s.unstaged_count + s.untracked_count = 0 →
      (s.sync_status = SyncStatus.clean ∨ s.sync_status = SyncStatus.ahead ∨
       s.sync_status = SyncStatus.no_upstream ∨ s.sync_status = SyncStatus.no_remote ∨
       s.sync_status = SyncStatus.detached ∨ s.sync_status = SyncStatus.error) →
      s.has_conflict_risk = false) := by
  obtain ⟨p, n, b, rb, sync, ac, bc, sc, uc, tc, em⟩ := s
  cases sync <;>
    (simp [RepositoryStatus.has_conflict_risk, RepositoryStatus.is_diverged,
      RepositoryStatus.needs_pull, RepositoryStatus.needs_push,
      RepositoryStatus.working_tree_status]
     all_goals omega)

/-- C4 witness: a behind repository with one untracked file has conflict
risk. -/
theorem has_conflict_risk_spec_witness :
    ({ path := "p", name := "p", sync_status := SyncStatus.behind,
       untracked_count := 1 } : RepositoryStatus).has_conflict_risk = true :=
  (has_conflict_risk_spec
    { path := "p", name := "p", sync_status := SyncStatus.behind,
      untracked_count := 1 }).1.mpr (Or.inr ⟨by decide, by decide⟩)

/-- C3: the classifier assigns `sync_status` by priority-ordered first
match: with an upstream present the ahead/behind comparison decides
between diverged/ahead/behind/clean; otherwise a detached HEAD yields
`detached`; otherwise a configured remote yields `no_upstream`; otherwise
`no_remote`. -/
theorem get_status_classification (path name : String) (info : PorcelainInfo)
    (hasRemotes : Bool) :
    (info.remote_branch ≠ "" →
      (((get_status path name info hasRemotes).sync_status = SyncStatus.diverged ↔
          info.ahead > 0 ∧ info.behind > 0) ∧
       ((get_status path name info hasRemotes).sync_status = SyncStatus.ahead ↔
          info.ahead > 0 ∧ info.behind = 0) ∧
       ((get_status path name info hasRemotes).sync_status = SyncStatus.behind ↔
          info.behind > 0 ∧ info.ahead = 0) ∧
       ((get_status path name info hasRemotes).sync_status = SyncStatus.clean ↔
          info.ahead = 0 ∧ info.behind = 0))) ∧
    (info.remote_branch = "" → info.branch = "(detached)" →
      (get_status path name info hasRemotes).sync_status = SyncStatus.detached) ∧
    (info.remote_branch = "" → info.branch ≠ "(detached)" → hasRemotes = true →
      (get_status path name info hasRemotes).sync_status = SyncStatus.no_upstream) ∧
    (info.remote_branch = "" → info.branch ≠ "(detached)" → hasRemotes = false →
      (get_status path name info hasRemotes).sync_status = SyncStatus.no_remote) := by
  refine ⟨fun hrb => ?_, fun hrb hd => ?_, fun hrb hd hr => ?_, fun hrb hd hr => ?_⟩
  · simp only [get_status, if_pos hrb]
    refine ⟨?_, ?_, ?_, ?_⟩ <;> (split_ifs with h1 h2 h3 <;> simp_all <;> omega)
  · simp [get_status, hrb, hd]
  · simp [get_status, hrb, hd, hr]
  · simp [get_status, hrb, hd, hr]

/-- C3 witness: a probe with upstream set and ahead=2, behind=3 classifies
as diverged. -/
theorem get_status_classification_witness :
    (get_status "p" "p"
      { branch := "main", remote_branch := "origin/main", ahead := 2, behind := 3 }
      true).sync_status = SyncStatus.diverged :=
  ((get_status_classification "p" "p"
      { branch := "main", remote_branch := "origin/main", ahead := 2, behind := 3 }
      true).1 (by decide)).1.mpr (by decide)

/-- `FleetManager.pull_all`, SMART branch (core.py): confirmed-safe
repositories — those that need a pull and carry no conflict-risk flag —
collected in pair order. -/
def smartSafe (pairs : List (GitRepo × RepositoryStatus)) : List GitRepo :=
  (pairs.filter fun p => p.2.needs_pull && !p.2.has_conflict_risk).map Prod.fst

/-- `FleetManager.pull_all`, SMART branch (core.py): repositories that
need a pull and carry the conflict-risk flag, so the file-level check is
run on them. -/
def smartNeedsCheck (pairs : List (GitRepo × RepositoryStatus)) : List GitRepo :=
  (pairs.filter fun p => p.2.needs_pull && p.2.has_conflict_risk).map Prod.fst

/-- `FleetManager.pull_all` selection logic over the index-aligned
`zip(repos, statuses)` pairs (core.py).  `checkOrder` is the order in
which the file-level conflict checks complete: `smartNeedsCheck pairs`
itself in the sequential branch, an arbitrary permutation of it in the
thread-pool branch (theorems about smart mode take the permutation as a
hypothesis). -/
def pullSelection (pairs : List (GitRepo × RepositoryStatus)) (mode : PullMode)
    (checkOrder : List GitRepo) : List GitRepo :=
  match mode with
  | PullMode.force => (pairs.filter fun p => p.2.needs_pull).map Prod.fst
  | PullMode.safe =>
      (pairs.filter fun p => p.2.needs_pull && !p.2.has_conflict_risk).map Prod.fst
  | PullMode.smart =>
      smartSafe pairs ++ checkOrder.filter fun r => !r.has_file_conflicts

/-- `FleetManager.push_all` selection logic (core.py): repositories whose
status needs a push. -/
def pushSelection (pairs : List (GitRepo × RepositoryStatus)) : List GitRepo :=
  (pairs.filter fun p => p.2.needs_push).map Prod.fst

/-- `FleetManager.pull_all` (core.py).  Returns the operation results and
the list of repository paths on which the adapter's state-mutating
`pull()` was invoked.  `statuses` is the index-aligned status list (the
code computes it when not supplied; here it is always given), and
`checkOrder` / `completion` model the nondeterministic completion orders
of the two thread pools. -/
def pull_all (repos : List GitRepo) (statuses : List RepositoryStatus)
    (only_behind : Bool) (dry_run : Bool) (mode : PullMode) (sequential : Bool)
    (checkOrder : List GitRepo) (completion : List OperationResult) :
    List OperationResult × List String :=
  let repos_to_pull :=
    if only_behind then pullSelection (repos.zip statuses) mode checkOrder else repos
  if dry_run then
    (repos_to_pull.map fun r =>
      { path := r.path, name := r.name, success := true, operation := "pull",
        message := "Would pull (dry-run)", error := "" }, [])
  else
    (executeParallel GitRepo.pullResult OperationResult.path repos_to_pull
      sequential completion,
     repos_to_pull.map GitRepo.path)

/-- `FleetManager.push_all` (core.py), analogous to `pull_all`. -/
def push_all (repos : List GitRepo) (statuses : List RepositoryStatus)
    (only_ahead : Bool) (dry_run : Bool) (sequential : Bool)
    (completion : List OperationResult) :
    List OperationResult × List String :=
  let repos_to_push :=
    if only_ahead then pushSelection (repos.zip statuses) else repos
  if dry_run then
    (repos_to_push.map fun r =>
      { path := r.path, name := r.name, success := true, operation := "push",
        message := "Would push (dry-run)", error := "" }, [])
  else
    (executeParallel GitRepo.pushResult OperationResult.path repos_to_push
      sequential completion,
     repos_to_push.map GitRepo.path)

theorem mem_pullSelection_force (pairs : List (GitRepo × RepositoryStatus))
    (checkOrder : List GitRepo) (r : GitRepo) :
    r ∈ pullSelection pairs PullMode.force checkOrder ↔
      ∃ s, (r, s) ∈ pairs ∧ s.needs_pull = true := by
  unfold pullSelection
  simp only [List.mem_map, List.mem_filter]
  constructor
  · rintro ⟨⟨r', s⟩, ⟨hmem, hcond⟩, rfl⟩
    exact ⟨s, hmem, hcond⟩
  · rintro ⟨s, hmem, hcond⟩
    exact ⟨(r, s), ⟨hmem, hcond⟩, rfl⟩

theorem mem_pullSelection_safe (pairs : List (GitRepo × RepositoryStatus))
    (checkOrder : List GitRepo) (r : GitRepo) :
    r ∈ pullSelection pairs PullMode.safe checkOrder ↔
      ∃ s, (r, s) ∈ pairs ∧ s.needs_pull = true ∧ s.has_conflict_risk = false := by
  unfold pullSelection
  simp only [List.mem_map, List.mem_filter, Bool.and_eq_true, Bool.not_eq_true']
  constructor
  · rintro ⟨⟨r', s⟩, ⟨hmem, hcond⟩, rfl⟩
    exact ⟨s, hmem, hcond⟩
  · rintro ⟨s, hmem, hcond⟩
    exact ⟨(r, s), ⟨hmem, hcond⟩, rfl⟩

theorem mem_smartNeedsCheck (pairs : List (GitRepo × RepositoryStatus)) (r : GitRepo) :
    r ∈ smartNeedsCheck pairs ↔
      ∃ s, (r, s) ∈ pairs ∧ s.needs_pull = true ∧ s.has_conflict_risk = true := by
  unfold smartNeedsCheck
  simp only [List.mem_map, List.mem_filter, Bool.and_eq_true]
  constructor
  · rintro ⟨⟨r', s⟩, ⟨hmem, hcond⟩, rfl⟩
    exact ⟨s, hmem, hcond⟩
  · rintro ⟨s, hmem, hcond⟩
    exact ⟨(r, s), ⟨hmem, hcond⟩, rfl⟩

theorem mem_pullSelection_smart (pairs : List (GitRepo × RepositoryStatus))
    (checkOrder : List GitRepo) (r : GitRepo)
    (hco : checkOrder.Perm (smartNeedsCheck pairs)) :
    r ∈ pullSelection pairs PullMode.smart checkOrder ↔
      ∃ s, (r, s) ∈ pairs ∧ s.needs_pull = true ∧
        (s.has_conflict_risk = false ∨
          (s.has_conflict_risk = true ∧ r.has_file_conflicts = false)) := by
  unfold pullSelection smartSafe
  simp only [List.mem_append, List.mem_map, List.mem_filter,
    Bool.and_eq_true, Bool.not_eq_true', (hco.filter _).mem_iff,
    mem_smartNeedsCheck]
  constructor
  · rintro (⟨⟨r', s⟩, ⟨hmem, hnp, hrisk⟩, rfl⟩ | ⟨⟨s, hmem, hnp, hrisk⟩, hnc⟩)
    · exact ⟨s, hmem, hnp, Or.inl hrisk⟩
    · exact ⟨s, hmem, hnp, Or.inr ⟨hrisk, hnc⟩⟩
  · rintro ⟨s, hmem, hnp, hrisk | ⟨hrisk, hnc⟩⟩
    · exact Or.inl ⟨(r, s), ⟨hmem, hnp, hrisk⟩, rfl⟩
    · exact Or.inr ⟨⟨s, hmem, hnp, hrisk⟩, hnc⟩

/-- C1: with `only_behind` set, the pull set is determined by the mode —
force: exactly the repositories whose status needs a pull; safe: those
that need a pull and carry no conflict risk; smart: those that need a
pull and either carry no conflict risk or pass the file-level conflict
check — and a repository whose merge-base lookup fails never passes that
check. -/
theorem pull_set_by_mode (repos checkOrder : List GitRepo)
    (statuses : List RepositoryStatus) (r : GitRepo)
    (hco : checkOrder.Perm (smartNeedsCheck (repos.zip statuses))) :
    (r ∈ pullSelection (repos.zip statuses) PullMode.force checkOrder ↔
      ∃ s, (r, s) ∈ repos.zip statuses ∧ s.needs_pull = true) ∧
    (r ∈ pullSelection (repos.zip statuses) PullMode.safe checkOrder ↔
      ∃ s, (r, s) ∈ repos.zip statuses ∧ s.needs_pull = true ∧
        s.has_conflict_risk = false) ∧
    (r ∈ pullSelection (repos.zip statuses) PullMode.smart checkOrder ↔
      ∃ s, (r, s) ∈ repos.zip statuses ∧ s.needs_pull = true ∧
        (s.has_conflict_risk = false ∨
          (s.has_conflict_risk = true ∧ r.has_file_conflicts = false))) ∧
    (r.mergeBase = none → r ∉ pullSelection (repos.zip statuses) PullMode.smart checkOrder ∨
      ∃ s, (r, s) ∈ repos.zip statuses ∧ s.has_conflict_risk = false) := by
  refine ⟨mem_pullSelection_force _ _ _, mem_pullSelection_safe _ _ _,
    mem_pullSelection_smart _ _ _ hco, ?_⟩
  intro hmb
  by_cases hin : r ∈ pullSelection (repos.zip statuses) PullMode.smart checkOrder
  · rcases (mem_pullSelection_smart _ _ _ hco).mp hin with ⟨s, hmem, _, hrisk | ⟨_, hnc⟩⟩
    · exact Or.inr ⟨s, hmem, hrisk⟩
    · exact absurd hnc (by simp [GitRepo.has_file_conflicts, hmb])
  · exact Or.inl hin

/-- C1 witness: one behind repository is selected in force mode. -/
theorem pull_set_by_mode_witness :
    ({ path := "a", name := "a" } : GitRepo) ∈
      pullSelection
        ([({ path := "a", name := "a" } : GitRepo)].zip
          [({ path := "a", name := "a", sync_status := SyncStatus.behind } :
            RepositoryStatus)])
        PullMode.force [] :=
  (pull_set_by_mode [{ path := "a", name := "a" }] []
    [{ path := "a", name := "a", sync_status := SyncStatus.behind }]
    { path := "a", name := "a" } (by decide)).1.mpr
    ⟨{ path := "a", name := "a", sync_status := SyncStatus.behind },
      by decide, by decide⟩

theorem mem_pushSelection (pairs : List (GitRepo × RepositoryStatus)) (r : GitRepo) :
    r ∈ pushSelection pairs ↔
      ∃ s, (r, s) ∈ pairs ∧ s.needs_push = true := by
  unfold pushSelection
  simp only [List.mem_map, List.mem_filter]
  constructor
  · rintro ⟨⟨r', s⟩, ⟨hmem, hcond⟩, rfl⟩
    exact ⟨s, hmem, hcond⟩
  · rintro ⟨s, hmem, hcond⟩
    exact ⟨(r, s), ⟨hmem, hcond⟩, rfl⟩

/-- C9: an error status needs neither push nor pull, and a repository all
of whose index-aligned statuses are errors is never selected by the
pull set (any mode, only_behind) or the push set (only_ahead). -/
theorem error_status_excluded (s : RepositoryStatus)
    (repos checkOrder : List GitRepo) (statuses : List RepositoryStatus)
    (mode : PullMode) (r : GitRepo)
    (hco : checkOrder.Perm (smartNeedsCheck (repos.zip statuses)))
    (herr : s.sync_status = SyncStatus.error)
    (hr : ∀ s', (r, s') ∈ repos.zip statuses → s'.sync_status = SyncStatus.error) :
    s.needs_push = false ∧ s.needs_pull = false ∧
    r ∉ pullSelection (repos.zip statuses) mode checkOrder ∧
    r ∉ pushSelection (repos.zip statuses) := by
  have hpull : ∀ s' : RepositoryStatus,
      s'.sync_status = SyncStatus.error → s'.needs_pull = false := by
    intro s' h
    simp [RepositoryStatus.needs_pull, h]
  have hpush : ∀ s' : RepositoryStatus,
      s'.sync_status = SyncStatus.error → s'.needs_push = false := by
    intro s' h
    simp [RepositoryStatus.needs_push, h]
  refine ⟨hpush s herr, hpull s herr, ?_, ?_⟩
  · intro hin
    cases mode with
    | force =>
        obtain ⟨s', hmem, hnp⟩ := (mem_pullSelection_force _ _ _).mp hin
        exact absurd hnp (by simp [hpull s' (hr s' hmem)])
    | safe =>
        obtain ⟨s', hmem, hnp, _⟩ := (mem_pullSelection_safe _ _ _).mp hin
        exact absurd hnp (by simp [hpull s' (hr s' hmem)])
    | smart =>
        obtain ⟨s', hmem, hnp, _⟩ := (mem_pullSelection_smart _ _ _ hco).mp hin
        exact absurd hnp (by simp [hpull s' (hr s' hmem)])
  · intro hin
    obtain ⟨s', hmem, hnp⟩ := (mem_pushSelection _ _).mp hin
    exact absurd hnp (by simp [hpush s' (hr s' hmem)])

/-- C9 witness: a repository with an error status is excluded from the
smart pull set. -/
theorem error_status_excluded_witness :
    ({ path := "a", name := "a" } : GitRepo) ∉
      pullSelection
        ([({ path := "a", name := "a" } : GitRepo)].zip
          [({ path := "a", name := "a", sync_status := SyncStatus.error,
              error_message := "boom" } : RepositoryStatus)])
        PullMode.smart [] :=
  (error_status_excluded
    { path := "a", name := "a", sync_status := SyncStatus.error,
      error_message := "boom" }
    [{ path := "a", name := "a" }] []
    [{ path := "a", name := "a", sync_status := SyncStatus.error,
       error_message := "boom" }]
    PullMode.smart { path := "a", name := "a" } (by decide) rfl
    (by
      intro s' h
      simp only [List.zip_cons_cons, List.zip_nil_right, List.mem_singleton,
        Prod.mk.injEq] at h
      rw [h.2])).2.2.1

/-- C8: with dry_run set, pull_all and push_all still compute the eligible
set by the normal selection logic, return exactly one successful
"Would pull (dry-run)" / "Would push (dry-run)" result per eligible
repository, and never invoke the adapter's state-mutating pull/push
(the invocation log stays empty). -/
theorem dry_run_spec (repos checkOrder : List GitRepo)
    (statuses : List RepositoryStatus) (only_flag : Bool) (mode : PullMode)
    (sequential : Bool) (completion : List OperationResult) :
    ((pull_all repos statuses only_flag true mode sequential checkOrder
        completion).1.map OperationResult.path =
      (if only_flag then pullSelection (repos.zip statuses) mode checkOrder
       else repos).map GitRepo.path) ∧
    (∀ res ∈ (pull_all repos statuses only_flag true mode sequential checkOrder
        completion).1,
      res.success = true ∧ res.message = "Would pull (dry-run)") ∧
    (pull_all repos statuses only_flag true mode sequential checkOrder
        completion).2 = [] ∧
    ((push_all repos statuses only_flag true sequential completion).1.map
        OperationResult.path =
      (if only_flag then pushSelection (repos.zip statuses) else repos).map
        GitRepo.path) ∧
    (∀ res ∈ (push_all repos statuses only_flag true sequential completion).1,
      res.success = true ∧ res.message = "Would push (dry-run)") ∧
    (push_all repos statuses only_flag true sequential completion).2 = [] := by
  have hp : (pull_all repos statuses only_flag true mode sequential checkOrder
      completion).1 =
      (if only_flag then pullSelection (repos.zip statuses) mode checkOrder
       else repos).map
        (fun r => ({ path := r.path, name := r.name, success := true,
                     operation := "pull", message := "Would pull (dry-run)",
                     error := "" } : OperationResult)) := by
    simp [pull_all]
  have hq : (push_all repos statuses only_flag true sequential completion).1 =
      (if only_flag then pushSelection (repos.zip statuses) else repos).map
        (fun r => ({ path := r.path, name := r.name, success := true,
                     operation := "push", message := "Would push (dry-run)",
                     error := "" } : OperationResult)) := by
    simp [push_all]
  refine ⟨?_, ?_, ?_, ?_, ?_, ?_⟩
  · rw [hp, List.map_map]
    rfl
  · intro res hres
    rw [hp] at hres
    obtain ⟨r, _, rfl⟩ := List.mem_map.mp hres
    exact ⟨rfl, rfl⟩
  · simp [pull_all]
  · rw [hq, List.map_map]
    rfl
  · intro res hres
    rw [hq] at hres
    obtain ⟨r, _, rfl⟩ := List.mem_map.mp hres
    exact ⟨rfl, rfl⟩
  · simp [push_all]

/-- C8 witness: dry-run pull over one behind repository yields one
synthetic successful result and an empty pull log. -/
theorem dry_run_spec_witness :
    (pull_all [({ path := "a", name := "a" } : GitRepo)]
      [({ path := "a", name := "a", sync_status := SyncStatus.behind } :
        RepositoryStatus)]
      true true PullMode.force true [] []).2 = [] :=
  (dry_run_spec [{ path := "a", name := "a" }] []
    [{ path := "a", name := "a", sync_status := SyncStatus.behind }]
    true PullMode.force true []).2.2.1

/-- `FleetManager.get_all_status` (core.py): run `repo.get_status` over
all repositories through the execution engine.  `statusOf` models the
per-repository probe outcome. -/
def get_all_status (repos : List GitRepo) (statusOf : GitRepo → RepositoryStatus)
    (sequential : Bool) (completion : List RepositoryStatus) :
    List RepositoryStatus :=
  executeParallel statusOf RepositoryStatus.path repos sequential completion

/-- `FleetManager.fetch_all` (core.py): run `repo.fetch` over all
repositories.  `fetchOf` models the per-repository fetch outcome. -/
def fetch_all (repos : List GitRepo) (fetchOf : GitRepo → OperationResult)
    (sequential : Bool) (completion : List OperationResult) :
    List OperationResult :=
  executeParallel fetchOf OperationResult.path repos sequential completion

theorem executeParallel_sorted {α : Type} (op : GitRepo → α) (key : α → String)
    (repos : List GitRepo) (sequential : Bool) (completion : List α) :
    sortedByKey key (executeParallel op key repos sequential completion) := by
  unfold executeParallel
  split
  · exact sortByKey_sorted key _
  · exact sortByKey_sorted key _

theorem map_fst_zip_sublist {α β : Type} :
    ∀ (l₁ : List α) (l₂ : List β), ((l₁.zip l₂).map Prod.fst).Sublist l₁
  | [], _ => by simp
  | _ :: _, [] => by simp
  | a :: t₁, b :: t₂ => by
      simpa using List.Sublist.cons₂ a (map_fst_zip_sublist t₁ t₂)

/-- C6 counterexample: with three repositories a (behind, clean), b
(diverged but with no file-level overlap) and c (behind, clean), a
dry-run smart pull returns results in order a, c, b — not sorted by
path (the confirmed-safe repositories precede the file-checked one). -/
theorem pull_all_smart_dry_run_unsorted :
    ¬ sortedByKey OperationResult.path
        (pull_all
          [{ path := "a", name := "a" },
           { path := "b", name := "b", mergeBase := some "m",
             remoteChangedFiles := ["x.py"], localChangedFiles := ["y.py"] },
           { path := "c", name := "c" }]
          [{ path := "a", name := "a", sync_status := SyncStatus.behind },
           { path := "b", name := "b", sync_status := SyncStatus.diverged },
           { path := "c", name := "c", sync_status := SyncStatus.behind }]
          true true PullMode.smart true
          [{ path := "b", name := "b", mergeBase := some "m",
             remoteChangedFiles := ["x.py"], localChangedFiles := ["y.py"] }]
          []).1 := by
  unfold sortedByKey
  decide

/-- C6 (amended): every result list produced through the execution engine
— status scan, fetch, non-dry pull, non-dry push — is sorted ascending by
repository path independent of the completion order; push_all dry-run and
pull_all dry-run in force/safe mode also return path-sorted lists when
the repository list is path-sorted (discovery sorts it); pull_all dry-run
in SMART mode is exempted: its result list can be unsorted. -/
theorem result_lists_sorted (repos checkOrder : List GitRepo)
    (statuses : List RepositoryStatus) (mode : PullMode)
    (only_flag sequential : Bool)
    (statusOf : GitRepo → RepositoryStatus) (fetchOf : GitRepo → OperationResult)
    (completionS : List RepositoryStatus) (completion : List OperationResult)
    (hsorted : sortedByKey GitRepo.path repos) :
    sortedByKey RepositoryStatus.path
      (get_all_status repos statusOf sequential completionS) ∧
    sortedByKey OperationResult.path
      (fetch_all repos fetchOf sequential completion) ∧
    sortedByKey OperationResult.path
      (pull_all repos statuses only_flag false mode sequential checkOrder
        completion).1 ∧
    sortedByKey OperationResult.path
      (push_all repos statuses only_flag false sequential completion).1 ∧
    sortedByKey OperationResult.path
      (push_all repos statuses only_flag true sequential completion).1 ∧
    (mode ≠ PullMode.smart →
      sortedByKey OperationResult.path
        (pull_all repos statuses only_flag true mode sequential checkOrder
          completion).1) := by
  have hsub : ∀ (p : GitRepo × RepositoryStatus → Bool),
      sortedByKey GitRepo.path
        (((repos.zip statuses).filter p).map Prod.fst) := by
    intro p
    have h1 : (((repos.zip statuses).filter p).map Prod.fst).Sublist
        (((repos.zip statuses)).map Prod.fst) :=
      ((repos.zip statuses).filter_sublist).map Prod.fst
    have h2 : (((repos.zip statuses)).map Prod.fst).Sublist repos :=
      map_fst_zip_sublist repos statuses
    exact List.Pairwise.sublist (h1.trans h2) hsorted
  have hdry : ∀ (l : List GitRepo) (verb : String) (msg : String),
      sortedByKey GitRepo.path l →
      sortedByKey OperationResult.path
        (l.map fun r => ({ path := r.path, name := r.name, success := true,
                           operation := verb, message := msg,
                           error := "" } : OperationResult)) := by
    intro l verb msg hl
    unfold sortedByKey
    rw [List.pairwise_map]
    exact hl
  refine ⟨executeParallel_sorted _ _ _ _ _, executeParallel_sorted _ _ _ _ _,
    ?_, ?_, ?_, ?_⟩
  · have : (pull_all repos statuses only_flag false mode sequential checkOrder
        completion).1 =
        executeParallel GitRepo.pullResult OperationResult.path
          (if only_flag then pullSelection (repos.zip statuses) mode checkOrder
           else repos) sequential completion := by
      simp [pull_all]
    rw [this]
    exact executeParallel_sorted _ _ _ _ _
  · have : (push_all repos statuses only_flag false sequential completion).1 =
        executeParallel GitRepo.pushResult OperationResult.path
          (if only_flag then pushSelection (repos.zip statuses) else repos)
          sequential completion := by
      simp [push_all]
    rw [this]
    exact executeParallel_sorted _ _ _ _ _
  · have heq : (push_all repos statuses only_flag true sequential completion).1 =
        (if only_flag then pushSelection (repos.zip statuses) else repos).map
          (fun r => ({ path := r.path, name := r.name, success := true,
                       operation := "push", message := "Would push (dry-run)",
                       error := "" } : OperationResult)) := by
      simp [push_all]
    rw [heq]
    apply hdry
    split
    · exact hsub _
    · exact hsorted
  · intro hmode
    have heq : (pull_all repos statuses only_flag true mode sequential checkOrder
        completion).1 =
        (if only_flag then pullSelection (repos.zip statuses) mode checkOrder
         else repos).map
          (fun r => ({ path := r.path, name := r.name, success := true,
                       operation := "pull", message := "Would pull (dry-run)",
                       error := "" } : OperationResult)) := by
      simp [pull_all]
    rw [heq]
    apply hdry
    split
    · cases mode with
      | smart => exact absurd rfl hmode
      | safe => exact hsub _
      | force => exact hsub _
    · exact hsorted

/-- C6 witness: at a concrete sorted repository list the status scan
output is sorted. -/
theorem result_lists_sorted_witness :
    sortedByKey RepositoryStatus.path
      (get_all_status [{ path := "a", name := "a" }, { path := "b", name := "b" }]
        (fun r => { path := r.path, name := r.name }) true []) :=
  (result_lists_sorted [{ path := "a", name := "a" }, { path := "b", name := "b" }]
    [] [] PullMode.force true true
    (fun r => { path := r.path, name := r.name })
    (fun r => r.pullResult) [] [] (by unfold sortedByKey; decide)).1

/-- Python `str.startswith`: character-prefix test. -/
def strStartsWith (s pre : String) : Bool := pre.data.isPrefixOf s.data

/-- Python `int()` restricted to the forms relevant here: an optional
sign followed by decimal digits (the shape of the `+N`/`-M` fields of a
`# branch.ab` line); `none` models a `ValueError`. -/
def decVal? (cs : List Char) : Option Nat :=
  if cs.isEmpty then none
  else
    cs.foldl
      (fun acc c =>
        match acc with
        | none => none
        | some n => if c.isDigit then some (n * 10 + (c.toNat - 48)) else none)
      (some 0)

def pyInt? (s : String) : Option Int :=
  match s.data with
  | '+' :: rest => (decVal? rest).map (fun n => (n : Int))
  | '-' :: rest => (decVal? rest).map (fun n => -(n : Int))
  | cs => (decVal? cs).map (fun n => (n : Int))

/-- One iteration of the line loop of `GitOperations.get_status_porcelain`
(core.py).  The boolean is false when the Python code would raise inside
the loop body (`IndexError` on a malformed changed-entry line, or
`ValueError` from `int()` on a malformed ahead/behind field); the
`except Exception: pass` around the loop then returns the info as mutated
up to the raise point, which the paired info models. -/
def porcelainStep (info : PorcelainInfo) (line : String) : PorcelainInfo × Bool :=
  if strStartsWith line "# branch.head " then
    ({ info with branch := String.mk (line.data.drop 14) }, true)
  else if strStartsWith line "# branch.upstream " then
    ({ info with remote_branch := String.mk (line.data.drop 18) }, true)
  else if strStartsWith line "# branch.ab " then
    let parts := (line.split Char.isWhitespace).filter (fun p => ¬ p.isEmpty)
    if parts.length = 3 then
      match pyInt? ((parts.get? 1).getD "") with
      | none => (info, false)
      | some a =>
          let info1 := { info with ahead := a.natAbs }
          match pyInt? ((parts.get? 2).getD "") with
          | none => (info1, false)
          | some b => ({ info1 with behind := b.natAbs }, true)
    else (info, true)
  else if strStartsWith line "1 " || strStartsWith line "2 " then
    match line.data.drop 2 with
    | [] => (info, false)
    | c0 :: rest0 =>
        let info1 :=
          if c0 ≠ '.' then { info with staged_count := info.staged_count + 1 }
          else info
        match rest0 with
        | [] => (info1, false)
        | c1 :: _ =>
            (if c1 ≠ '.' then
               { info1 with unstaged_count := info1.unstaged_count + 1 }
             else info1, true)
  else if strStartsWith line "u " then
    ({ info with staged_count := info.staged_count + 1,
                 unstaged_count := info.unstaged_count + 1 }, true)
  else if strStartsWith line "? " then
    ({ info with untracked_count := info.untracked_count + 1 }, true)
  else (info, true)

/-- The line loop of `get_status_porcelain`: stop (returning the partial
info) as soon as a step raises. -/
def porcelainLoop : PorcelainInfo → List String → PorcelainInfo
  | info, [] => info
  | info, line :: rest =>
      match porcelainStep info line with
      | (info', true) => porcelainLoop info' rest
      | (info', false) => info'

/-- Whether the whole line loop runs without raising. -/
def porcelainOk : PorcelainInfo → List String → Bool
  | _, [] => true
  | info, line :: rest =>
      match porcelainStep info line with
      | (info', true) => porcelainOk info' rest
      | (_, false) => false

/-- `GitOperations.get_status_porcelain` (core.py) on the successful-probe
path: fold the parser over the porcelain v2 output lines starting from
the all-defaults info record. -/
def get_status_porcelain (lines : List String) : PorcelainInfo :=
  porcelainLoop {} lines

theorem strStartsWith_u (line : String) (h : strStartsWith line "u " = true) :
    ∃ t, line.data = 'u' :: ' ' :: t := by
  unfold strStartsWith at h
  have hd : ("u " : String).data = ['u', ' '] := rfl
  rw [hd] at h
  rcases hl : line.data with _ | ⟨c, rest⟩ <;> rw [hl] at h
  · simp [List.isPrefixOf] at h
  rcases hr : rest with _ | ⟨c2, rest2⟩ <;> rw [hr] at h
  · simp [List.isPrefixOf] at h
  · simp [List.isPrefixOf] at h
    exact ⟨rest2, by rw [h.1, h.2]⟩

theorem porcelainStep_unmerged (info : PorcelainInfo) (line : String)
    (hu : strStartsWith line "u " = true) :
    porcelainStep info line =
      ({ info with staged_count := info.staged_count + 1,
                   unstaged_count := info.unstaged_count + 1 }, true) := by
  obtain ⟨t, hdata⟩ := strStartsWith_u line hu
  have h1 : strStartsWith line "# branch.head " = false := by
    unfold strStartsWith
    rw [hdata]
    rfl
  have h2 : strStartsWith line "# branch.upstream " = false := by
    unfold strStartsWith
    rw [hdata]
    rfl
  have h3 : strStartsWith line "# branch.ab " = false := by
    unfold strStartsWith
    rw [hdata]
    rfl
  have h4 : strStartsWith line "1 " = false := by
    unfold strStartsWith
    rw [hdata]
    rfl
  have h5 : strStartsWith line "2 " = false := by
    unfold strStartsWith
    rw [hdata]
    rfl
  simp [porcelainStep, h1, h2, h3, h4, h5, hu]

theorem porcelainStep_mono (info : PorcelainInfo) (line : String) :
    info.staged_count ≤ (porcelainStep info line).1.staged_count ∧
    info.unstaged_count ≤ (porcelainStep info line).1.unstaged_count := by
  unfold porcelainStep
  dsimp only
  repeat' split
  all_goals simp

theorem porcelainLoop_mono : ∀ (lines : List String) (info : PorcelainInfo),
    info.staged_count ≤ (porcelainLoop info lines).staged_count ∧
    info.unstaged_count ≤ (porcelainLoop info lines).unstaged_count
  | [], info => ⟨le_refl _, le_refl _⟩
  | line :: rest, info => by
      have hstep := porcelainStep_mono info line
      unfold porcelainLoop
      rcases hp : porcelainStep info line with ⟨info', ok⟩
      rw [hp] at hstep
      cases ok
      · simpa using hstep
      · have hrest := porcelainLoop_mono rest info'
        constructor
        · exact le_trans hstep.1 hrest.1
        · exact le_trans hstep.2 hrest.2

theorem porcelainLoop_unmerged :
    ∀ (lines : List String) (info : PorcelainInfo),
    porcelainOk info lines = true →
    (∃ l ∈ lines, strStartsWith l "u " = true) →
    1 ≤ (porcelainLoop info lines).staged_count ∧
    1 ≤ (porcelainLoop info lines).unstaged_count
  | [], _, _, hex => by simp at hex
  | line :: rest, info, hok, hex => by
      unfold porcelainOk at hok
      unfold porcelainLoop
      rcases hp : porcelainStep info line with ⟨info', ok⟩
      rw [hp] at hok
      cases ok
      · simp at hok
      · by_cases hu : strStartsWith line "u " = true
        · have hstep := porcelainStep_unmerged info line hu
          rw [hstep] at hp
          have hmono := porcelainLoop_mono rest info'
          have hinfo : info'.staged_count = info.staged_count + 1 ∧
              info'.unstaged_count = info.unstaged_count + 1 := by
            have := congrArg Prod.fst hp
            simp at this
            rw [← this]
            exact ⟨rfl, rfl⟩
          constructor
          · calc 1 ≤ info'.staged_count := by omega
              _ ≤ _ := hmono.1
          · calc 1 ≤ info'.unstaged_count := by omega
              _ ≤ _ := hmono.2
        · obtain ⟨l, hl, hlu⟩ := hex
          rcases List.mem_cons.mp hl with rfl | hlr
          · exact absurd hlu hu
          · exact porcelainLoop_unmerged rest info' hok ⟨l, hlr, hlu⟩

/-- C10: an unmerged porcelain line (prefix `u `) increments both the
staged and the unstaged count, and a fault-free probe whose lines include
an unmerged entry yields a dirty working tree classification. -/
theorem unmerged_counts_both (info : PorcelainInfo) (line : String)
    (lines : List String) (p n : String) (hasRemotes : Bool)
    (hu : strStartsWith line "u " = true)
    (hok : porcelainOk {} lines = true)
    (hmem : ∃ l ∈ lines, strStartsWith l "u " = true) :
    porcelainStep info line =
      ({ info with staged_count := info.staged_count + 1,
                   unstaged_count := info.unstaged_count + 1 }, true) ∧
    1 ≤ (get_status_porcelain lines).staged_count ∧
    1 ≤ (get_status_porcelain lines).unstaged_count ∧
    (get_status p n (get_status_porcelain lines) hasRemotes).working_tree_status =
      WorkingTreeStatus.dirty := by
  have hloop := porcelainLoop_unmerged lines {} hok hmem
  refine ⟨porcelainStep_unmerged info line hu, hloop.1, hloop.2, ?_⟩
  have h1 := hloop.1
  simp [get_status, RepositoryStatus.working_tree_status, get_status_porcelain]
  omega

/-- C10 witness: a two-line probe with one unmerged entry parses to
staged = unstaged = 1 and a dirty tree. -/
theorem unmerged_counts_both_witness :
    1 ≤ (get_status_porcelain
      ["# branch.head main", "u UU N... 100644 100644 100644 100644 x.txt"]).staged_count :=
  (unmerged_counts_both {} "u UU N... 100644 100644 100644 100644 x.txt"
    ["# branch.head main", "u UU N... 100644 100644 100644 100644 x.txt"]
    "p" "n" true (by decide) (by decide)
    ⟨"u UU N... 100644 100644 100644 100644 x.txt", by decide, by decide⟩).2.1

/-- A filesystem path as its `Path.parts` segment list (formatters.py
works on `p.parts`). -/
abbrev PathParts := List String

/-- `"/".join(reversed(parts[:depth]))` — the last `depth` segments of the
path, kept as a segment list: `"/".join` is injective on genuine
`Path.parts` lists (segments other than the anchor never contain a
slash), so list equality models the string comparison in the source. -/
def candidateAt (rparts : PathParts) (depth : Nat) : PathParts :=
  (rparts.take depth).reverse

/-- The inner uniqueness check of `_make_paths_unique` (formatters.py):
the candidate differs from every other path's candidate truncated to the
comparable depth. -/
def isUniqueAt (others : List PathParts) (rparts : PathParts) (depth : Nat) : Bool :=
  others.all fun other =>
    candidateAt rparts depth != candidateAt other (min depth other.length)

/-- The `while depth <= len(parts)` search of `_make_paths_unique`: from
depth `d` with the given iteration budget, return the first unique
candidate, or (the loop's `else` clause) the full path. -/
def firstUnique (others : List PathParts) (rparts : PathParts) :
    Nat → Nat → PathParts
  | _, 0 => rparts.reverse
  | d, fuel + 1 =>
      if isUniqueAt others rparts d then candidateAt rparts d
      else firstUnique others rparts (d + 1) fuel

/-- `_make_paths_unique` (formatters.py): each path is disambiguated
against all the others (by index, as in the Python double loop, over the
reversed-parts lists `path_parts_list`). -/
def makePathsUnique (paths : List PathParts) : List PathParts :=
  (List.range (paths.map List.reverse).length).map fun i =>
    firstUnique ((paths.map List.reverse).eraseIdx i)
      ((paths.map List.reverse).getD i []) 1
      ((paths.map List.reverse).getD i []).length

/-- The name computed for the i-th path. -/
def nameAt (paths : List PathParts) (i : Nat) : PathParts :=
  firstUnique ((paths.map List.reverse).eraseIdx i)
    ((paths.map List.reverse).getD i []) 1
    ((paths.map List.reverse).getD i []).length

theorem candidateAt_length (rparts : PathParts) (d : Nat) :
    (candidateAt rparts d).length = min d rparts.length := by
  simp [candidateAt]

theorem candidateAt_full (rparts : PathParts) :
    candidateAt rparts rparts.length = rparts.reverse := by
  simp [candidateAt]

theorem isUniqueAt_ne (others : List PathParts) (rparts other : PathParts)
    (d : Nat) (h : isUniqueAt others rparts d = true) (hmem : other ∈ others) :
    candidateAt rparts d ≠ candidateAt other (min d other.length) := by
  have := (List.all_eq_true.mp h) other hmem
  exact bne_iff_ne.mp this

theorem firstUnique_spec (others : List PathParts) (rparts : PathParts) :
    ∀ (fuel d : Nat),
    (∃ e, d ≤ e ∧ e < d + fuel ∧ isUniqueAt others rparts e = true ∧
      firstUnique others rparts d fuel = candidateAt rparts e ∧
      ∀ e', d ≤ e' → e' < e → isUniqueAt others rparts e' = false) ∨
    ((∀ e, d ≤ e → e < d + fuel → isUniqueAt others rparts e = false) ∧
      firstUnique others rparts d fuel = rparts.reverse)
  | 0, d => Or.inr ⟨fun e he1 he2 => absurd he2 (by omega), rfl⟩
  | fuel + 1, d => by
      by_cases h : isUniqueAt others rparts d = true
      · exact Or.inl ⟨d, le_refl d, by omega, h, by simp [firstUnique, h],
          fun e' h1 h2 => absurd h2 (by omega)⟩
      · have h' : isUniqueAt others rparts d = false := by
          simpa using h
        rcases firstUnique_spec others rparts fuel (d + 1) with
          ⟨e, he1, he2, hu, hres, hmin⟩ | ⟨hall, hres⟩
        · refine Or.inl ⟨e, by omega, by omega, hu, ?_, ?_⟩
          · rw [show firstUnique others rparts d (fuel + 1) =
                firstUnique others rparts (d + 1) fuel by simp [firstUnique, h']]
            exact hres
          · intro e' h1 h2
            rcases Nat.eq_or_lt_of_le h1 with rfl | hlt
            · exact h'
            · exact hmin e' hlt h2
        · refine Or.inr ⟨?_, ?_⟩
          · intro e he1 he2
            rcases Nat.eq_or_lt_of_le he1 with rfl | hlt
            · exact h'
            · exact hall e hlt (by omega)
          · rw [show firstUnique others rparts d (fuel + 1) =
                firstUnique others rparts (d + 1) fuel by simp [firstUnique, h']]
            exact hres

theorem rlists_getD (paths : List PathParts) (i : Nat) (hi : i < paths.length) :
    (paths.map List.reverse).getD i [] = (paths.getD i []).reverse := by
  rw [List.getD_eq_getElem (paths.map List.reverse) [] (by simpa using hi),
    List.getD_eq_getElem paths [] hi, List.getElem_map]

theorem makePathsUnique_length (paths : List PathParts) :
    (makePathsUnique paths).length = paths.length := by
  simp [makePathsUnique]

theorem makePathsUnique_getD (paths : List PathParts) (i : Nat)
    (hi : i < paths.length) :
    (makePathsUnique paths).getD i [] = nameAt paths i := by
  have hlen : i < (makePathsUnique paths).length := by
    simpa [makePathsUnique_length] using hi
  rw [List.getD_eq_getElem (makePathsUnique paths) [] hlen]
  unfold makePathsUnique nameAt
  rw [List.getElem_map, List.getElem_range]

theorem getD_mem_eraseIdx {α : Type} (d : α) :
    ∀ (l : List α) (i j : Nat), i ≠ j → j < l.length → l.getD j d ∈ l.eraseIdx i
  | [], _, _, _, h => by simp at h
  | a :: t, 0, 0, hne, _ => absurd rfl hne
  | a :: t, 0, j + 1, _, hj => by
      have : (a :: t).getD (j + 1) d = t.getD j d := rfl
      rw [this, List.eraseIdx]
      rw [List.getD_eq_getElem t d (by simpa using hj)]
      exact List.getElem_mem _
  | a :: t, i + 1, 0, _, _ => by
      rw [List.eraseIdx]
      exact List.mem_cons_self _ _
  | a :: t, i + 1, j + 1, hne, hj => by
      rw [List.eraseIdx]
      have : (a :: t).getD (j + 1) d = t.getD j d := rfl
      rw [this]
      exact List.mem_cons_of_mem a
        (getD_mem_eraseIdx d t i j (by omega) (by simpa using hj))

theorem nameAt_cases (paths : List PathParts) (i : Nat) (hi : i < paths.length) :
    ∃ d, d ≤ (paths.getD i []).length ∧
      nameAt paths i = candidateAt (paths.getD i []).reverse d ∧
      ((1 ≤ d ∧
          isUniqueAt ((paths.map List.reverse).eraseIdx i)
            (paths.getD i []).reverse d = true ∧
          ∀ e, 1 ≤ e → e < d →
            isUniqueAt ((paths.map List.reverse).eraseIdx i)
              (paths.getD i []).reverse e = false) ∨
       (d = (paths.getD i []).length ∧
          ∀ e, 1 ≤ e → e ≤ (paths.getD i []).length →
            isUniqueAt ((paths.map List.reverse).eraseIdx i)
              (paths.getD i []).reverse e = false)) := by
  unfold nameAt
  rw [rlists_getD paths i hi]
  have hlen : ((paths.getD i []).reverse).length = (paths.getD i []).length := by
    simp
  rcases firstUnique_spec ((paths.map List.reverse).eraseIdx i)
      (paths.getD i []).reverse ((paths.getD i []).reverse).length 1 with
    ⟨e, he1, he2, hu, hres, hmin⟩ | ⟨hall, hres⟩
  · exact ⟨e, by omega, hres, Or.inl ⟨he1, hu, fun e' h1 h2 => hmin e' h1 h2⟩⟩
  · refine ⟨(paths.getD i []).length, le_refl _, ?_, Or.inr ⟨rfl, ?_⟩⟩
    · rw [hres, ← hlen, candidateAt_full]
    · intro e h1 h2
      exact hall e h1 (by omega)

theorem nameAt_inj (paths : List PathParts) (hnd : paths.Nodup)
    (i j : Nat) (hi : i < paths.length) (hj : j < paths.length) (hne : i ≠ j)
    (heq : nameAt paths i = nameAt paths j) : False := by
  obtain ⟨di, hdi, hni, hpi⟩ := nameAt_cases paths i hi
  obtain ⟨dj, hdj, hnj, hpj⟩ := nameAt_cases paths j hj
  have hlen : di = dj := by
    have hl := congrArg List.length heq
    rw [hni, hnj, candidateAt_length, candidateAt_length] at hl
    simp only [List.length_reverse] at hl
    omega
  have hmem_j : (paths.map List.reverse).getD j [] ∈
      (paths.map List.reverse).eraseIdx i :=
    getD_mem_eraseIdx [] (paths.map List.reverse) i j hne (by simpa using hj)
  have hmem_i : (paths.map List.reverse).getD i [] ∈
      (paths.map List.reverse).eraseIdx j :=
    getD_mem_eraseIdx [] (paths.map List.reverse) j i (Ne.symm hne)
      (by simpa using hi)
  rcases hpi with ⟨_, hui, _⟩ | ⟨hdileq, _⟩
  · have hne_cand := isUniqueAt_ne _ _ _ di hui hmem_j
    rw [rlists_getD paths j hj] at hne_cand
    have hminj : min di ((paths.getD j []).reverse).length = dj := by
      simp only [List.length_reverse]
      omega
    rw [hminj] at hne_cand
    exact hne_cand (hni ▸ hnj ▸ heq)
  · rcases hpj with ⟨_, huj, _⟩ | ⟨hdjleq, _⟩
    · have hne_cand := isUniqueAt_ne _ _ _ dj huj hmem_i
      rw [rlists_getD paths i hi] at hne_cand
      have hmini : min dj ((paths.getD i []).reverse).length = di := by
        simp only [List.length_reverse]
        omega
      rw [hmini] at hne_cand
      exact hne_cand (hnj ▸ hni ▸ heq.symm)
    · have hfi : nameAt paths i = paths.getD i [] := by
        rw [hni, hdileq, ← List.length_reverse, candidateAt_full,
          List.reverse_reverse]
      have hfj : nameAt paths j = paths.getD j [] := by
        rw [hnj, hdjleq, ← List.length_reverse, candidateAt_full,
          List.reverse_reverse]
      have hpeq : paths.getD i [] = paths.getD j [] := by
        rw [← hfi, ← hfj, heq]
      rw [List.getD_eq_getElem paths [] hi, List.getD_eq_getElem paths [] hj]
        at hpeq
      exact hne ((hnd.getElem_inj_iff).mp hpeq)

/-- C7: on duplicate-free input paths, `_make_paths_unique` returns one
display name per path; the mapping is injective (no two distinct paths
share a name); every name is a suffix of its path's segment list, and a
nonempty one (hence ending in the leaf segment) whenever the path is
nonempty; and each name uses the minimal number of trailing segments that
passes the uniqueness check, the whole path when no count passes. -/
theorem makePathsUnique_spec (paths : List PathParts) (hnd : paths.Nodup) :
    (makePathsUnique paths).length = paths.length ∧
    (makePathsUnique paths).Nodup ∧
    ∀ i, i < paths.length →
      List.IsSuffix ((makePathsUnique paths).getD i []) (paths.getD i []) ∧
      (paths.getD i [] ≠ [] → (makePathsUnique paths).getD i [] ≠ []) ∧
      ((∃ d, 1 ≤ d ∧ d ≤ (paths.getD i []).length ∧
          isUniqueAt ((paths.map List.reverse).eraseIdx i)
            (paths.getD i []).reverse d = true ∧
          (makePathsUnique paths).getD i [] =
            candidateAt (paths.getD i []).reverse d ∧
          ∀ e, 1 ≤ e → e < d →
            isUniqueAt ((paths.map List.reverse).eraseIdx i)
              (paths.getD i []).reverse e = false) ∨
       ((∀ e, 1 ≤ e → e ≤ (paths.getD i []).length →
            isUniqueAt ((paths.map List.reverse).eraseIdx i)
              (paths.getD i []).reverse e = false) ∧
          (makePathsUnique paths).getD i [] = paths.getD i [])) := by
  refine ⟨makePathsUnique_length paths, ?_, ?_⟩
  · have hrange : (List.range (paths.map List.reverse).length).Nodup :=
      List.nodup_range _
    refine List.Nodup.map_on ?_ hrange
    intro x hx y hy hxy
    simp only [List.mem_range, List.length_map] at hx hy
    by_contra hne
    exact nameAt_inj paths hnd x y hx hy hne hxy
  · intro i hi
    rw [makePathsUnique_getD paths i hi]
    obtain ⟨d, hd, hn, hprop⟩ := nameAt_cases paths i hi
    refine ⟨?_, ?_, ?_⟩
    · rw [hn]
      have : List.IsSuffix (candidateAt (paths.getD i []).reverse d)
          ((paths.getD i []).reverse).reverse := by
        unfold candidateAt
        exact List.reverse_suffix.mpr (List.take_prefix d _)
      simpa using this
    · intro hpne hname
      rw [hn] at hname
      unfold candidateAt at hname
      have := List.reverse_eq_nil_iff.mp hname
      rcases List.take_eq_nil_iff.mp this with h0 | hnil
      · rcases hprop with ⟨h1, _, _⟩ | ⟨hdl, _⟩
        · omega
        · rw [hdl] at h0
          exact hpne (List.length_eq_zero.mp h0)
      · exact hpne (List.reverse_eq_nil_iff.mp hnil)
    · rcases hprop with ⟨h1, hu, hmin⟩ | ⟨hdl, hall⟩
      · exact Or.inl ⟨d, h1, hd, hu, hn, hmin⟩
      · refine Or.inr ⟨hall, ?_⟩
        rw [hn, hdl, ← List.length_reverse, candidateAt_full,
          List.reverse_reverse]

/-- C7 witness: two four-segment paths differing in the second segment
both receive names and the name list is duplicate-free. -/
theorem makePathsUnique_spec_witness :
    (makePathsUnique [["home", "alice", "dev", "proj"],
                      ["home", "bob", "dev", "proj"]]).Nodup :=
  (makePathsUnique_spec
    [["home", "alice", "dev", "proj"], ["home", "bob", "dev", "proj"]]
    (by decide)).2.1

end GitFleet
